import Mathlib

/-
Verification of the fact-reconciliation, page-selection, retry and cache-load
logic of the esa-mne-challenge repository, as a shallow embedding in Lean.

Embedding conventions:
  * Python `list` becomes `List`, Python `dict` (insertion-ordered) becomes an
    association list `List (String × _)` whose update keeps the entry position.
  * Optional fields (`Optional[int]`, `Optional[str]`) become `Option _`.
  * Code that can raise (the `"wikipedia" in item.source_url` membership test on
    a possibly-`None` value in `merge_extracted_infos`, the `item.year >
    latest[var].year` comparison on possibly-`None` years in
    `deduplicate_by_latest_year`) is embedded in `Except Unit`.
  * Python truthiness of an optional integer (`if item.year`) is `none` or `0`
    being falsy; this is modelled explicitly.
-/

namespace EsaMne

/-- Modelled from the spec: the `ExtractedInfo` record (module
`extractors.models`, absent from the sources; only its constructions and field
accesses appear).  Per the spec's data model a Fact is
{topic, value, optional 4-digit year, optional currency, optional source_url,
owning entity id}.  The topic is stored in the `variable` field and the value
is topic-typed; a single integer value suffices for the merge logic, which
never inspects it. -/
structure ExtractedInfo where
  mne_id : Nat
  mne_name : String
  «variable» : String
  source_url : Option String
  value : Int
  currency : Option String
  year : Option Nat
deriving Repr, DecidableEq

/-- Substring test: Python `needle in haystack` on strings. -/
def strHasSub (haystack needle : String) : Bool :=
  go haystack.toList
where
  eats : List Char → List Char → Bool
    | _, [] => true
    | [], _ :: _ => false
    | c :: cs, d :: ds => c = d && eats cs ds
  go : List Char → Bool
    | [] => needle.toList.isEmpty
    | c :: cs => eats (c :: cs) needle.toList || go cs

/-- Python truthiness of an `Optional[int]` year: `None` and `0` are falsy. -/
def truthyYear : Option Nat → Bool
  | none => false
  | some y => y != 0

/-- Lookup in the insertion-ordered dict embedding (`merged[key]` read). -/
def findEntry (m : List (String × ExtractedInfo)) (k : String) : Option ExtractedInfo :=
  match m.find? (fun e => e.1 == k) with
  | none => none
  | some e => some e.2

/-- Overwrite in the insertion-ordered dict embedding (`merged[key] = item` on
an existing key: the entry keeps its position). -/
def setEntry (m : List (String × ExtractedInfo)) (k : String) (v : ExtractedInfo)
    : List (String × ExtractedInfo) :=
  m.map (fun e => if e.1 == k then (e.1, v) else e)

/-- Condition `"wikipedia" in su and year and year >= 2024` from
`merge_extracted_infos` (src/extractors/utils.py lines 21 and 24), evaluated on
an already-non-None source url. -/
def wikiFreshCheck (su : String) (yr : Option Nat) : Bool :=
  strHasSub su "wikipedia" && truthyYear yr && yr.getD 0 ≥ 2024

/-- The EMPLOYEES special rule of `merge_extracted_infos` (utils.py lines
19-26).  Returns `some chosen` when the rule decides the winner, `none` when
control falls through to the default year comparison.  Python evaluates
`"wikipedia" in item.source_url` first and, only if the first condition is
false, `"wikipedia" in current.source_url`; each raises `TypeError` (embedded
as `.error ()`) when the url is `None`. -/
def employeesRule (current item : ExtractedInfo) : Except Unit (Option ExtractedInfo) :=
  match item.source_url with
  | none => .error ()
  | some isu =>
    if wikiFreshCheck isu item.year then .ok (some item)
    else
      match current.source_url with
      | none => .error ()
      | some csu =>
        if wikiFreshCheck csu current.year then .ok (some current)
        else .ok none

/-- Default merging logic by year (utils.py lines 28-32): the incoming item
replaces the stored one exactly when `item.year and (current.year is None or
item.year > current.year)`; in every other case (the `elif` equality branch
and the implicit fall-through) the stored item is kept. -/
def defaultMergeChoice (current item : ExtractedInfo) : ExtractedInfo :=
  match item.year, current.year with
  | some iy, none => if iy ≠ 0 then item else current
  | some iy, some cy => if iy ≠ 0 ∧ iy > cy then item else current
  | none, _ => current

/-- One inner-loop iteration of `merge_extracted_infos` for a single `item`. -/
def mergeItem (merged : List (String × ExtractedInfo)) (item : ExtractedInfo)
    : Except Unit (List (String × ExtractedInfo)) :=
  let key := item.«variable»
  match findEntry merged key with
  | none => .ok (merged ++ [(key, item)])
  | some current =>
    if key = "EMPLOYEES" then
      match employeesRule current item with
      | .error e => .error e
      | .ok (some chosen) => .ok (setEntry merged key chosen)
      | .ok none => .ok (setEntry merged key (defaultMergeChoice current item))
    else
      .ok (setEntry merged key (defaultMergeChoice current item))

/-- Inner loop of `merge_extracted_infos` over one source list. -/
def mergeList : List (String × ExtractedInfo) → List ExtractedInfo →
    Except Unit (List (String × ExtractedInfo))
  | m, [] => .ok m
  | m, item :: rest =>
    match mergeItem m item with
    | .error e => .error e
    | .ok m2 => mergeList m2 rest

/-- Outer loop of `merge_extracted_infos` over the sources.  The Python
`if not source: continue` guard only skips an empty list, which the inner loop
traverses vacuously anyway. -/
def mergeSources : List (String × ExtractedInfo) → List (List ExtractedInfo) →
    Except Unit (List (String × ExtractedInfo))
  | m, [] => .ok m
  | m, src :: rest =>
    match mergeList m src with
    | .error e => .error e
    | .ok m2 => mergeSources m2 rest

/-- Embedding of `merge_extracted_infos` (src/src/extractors/utils.py lines
4-34).  `list(merged.values())` returns the stored facts in key insertion
order, which the association list preserves. -/
def merge_extracted_infos (sources : List (List ExtractedInfo)) : Except Unit (List ExtractedInfo) :=
  match mergeSources [] sources with
  | .error e => .error e
  | .ok m => .ok (m.map Prod.snd)

/-- Body of the `deduplicate_by_latest_year` loop (utils.py lines 39-42) for
one `item`.  A first occurrence of a variable is stored without looking at
years (the `or` short-circuits); a later occurrence triggers
`item.year > latest[var].year`, which in Python raises `TypeError` (embedded
as `.error ()`) when either year is `None`. -/
def dedupStep (m : List (String × ExtractedInfo)) (item : ExtractedInfo)
    : Except Unit (List (String × ExtractedInfo)) :=
  match findEntry m item.«variable» with
  | none => .ok (m ++ [(item.«variable», item)])
  | some cur =>
    match item.year, cur.year with
    | some iy, some cy =>
      if iy > cy then .ok (setEntry m item.«variable» item)
      else .ok m
    | _, _ => .error ()

/-- Loop of `deduplicate_by_latest_year` (utils.py lines 37-43). -/
def dedupLoop : List (String × ExtractedInfo) → List ExtractedInfo →
    Except Unit (List (String × ExtractedInfo))
  | m, [] => .ok m
  | m, item :: rest =>
    match dedupStep m item with
    | .error e => .error e
    | .ok m2 => dedupLoop m2 rest

/-- Embedding of `deduplicate_by_latest_year` (utils.py lines 37-43). -/
def deduplicate_by_latest_year (infos : List ExtractedInfo) : Except Unit (List ExtractedInfo) :=
  match dedupLoop [] infos with
  | .error e => .error e
  | .ok m => .ok (m.map Prod.snd)

/-- Raw result dict produced by the underlying DuckDuckGo lookup
(`DDGS().text`), with the three fields the code reads. -/
structure RawResult where
  href : String
  title : String
  body : String
deriving Repr, DecidableEq

/-- The `SearchResult` model (src/src/discovery/models.py). -/
structure SearchResult where
  url : String
  title : String
  description : String
deriving Repr, DecidableEq

/-- Fixed pool of client identities (src/src/common/websearch/duckduckgo.py
lines 10-16). -/
def USER_AGENTS : List String :=
  [ "Mozilla/5.0",
    "Mozilla/5.0 (Windows NT 10.0; Win64; x64)",
    "Mozilla/5.0 (Macintosh; Intel Mac OS X 10_15_7)",
    "Mozilla/5.0 (X11; Linux x86_64)",
    "Mozilla/5.0 (Windows NT 10.0; Win64; x64; rv:112.0) Gecko/20100101 Firefox/112.0" ]

def toSearchResult (r : RawResult) : SearchResult :=
  { url := r.href, title := r.title, description := r.body }

/-- Tail of `DuckDuckGoSearch.search` after a successful lookup (duckduckgo.py
lines 41-45): an empty result list is returned as `[]`, otherwise each raw
dict is mapped to a `SearchResult`. -/
def ddgFinish (results : List RawResult) : List SearchResult :=
  if results.isEmpty then [] else results.map toSearchResult

/-- Embedding of `DuckDuckGoSearch.search` (duckduckgo.py lines 25-45).  The
external lookup is an oracle `fetch`: called with `none` for the default
client identity and with `some h` for an explicit `User-Agent` header `h`;
`.error` embeds a raised exception.  `pick` embeds the `random.choice` draw as
an index into the fixed pool. -/
def pickAgent (pick : Nat) : String := USER_AGENTS.getD (pick % USER_AGENTS.length) ""

def ddgSearch (fetch : Option String → Except Unit (List RawResult)) (pick : Nat)
    : List SearchResult :=
  match fetch none with
  | .ok results => ddgFinish results
  | .error _ =>
    match fetch (some (pickAgent pick)) with
    | .ok results => ddgFinish results
    | .error _ => []

/-- Selection constants (src/src/extractors/pdf.py lines 26-28). -/
def MIN_REQUIRED_PAGES : Nat := 2

def MAX_TOTAL_PAGES : Nat := 10

def MAX_PER_VARIABLE : Nat := 5

/-- Page metadata dict built by `PDFExtractor.extract_variable_page_map`
(pdf.py lines 159-167): 1-based page number, page text, the set of matched
variables (a Python set, held here as a duplicate-free list) and the count of
distinct matched variables. -/
structure Page where
  page_number : Nat
  text : String
  matched_variables : List String
  match_count : Nat
deriving Repr, DecidableEq

/-- Ranking order of `select_top_pages` (pdf.py line 187): Python sort key
`(-match_count, page_number)`. -/
def rankLE (p q : Page) : Bool :=
  if p.match_count = q.match_count then Nat.ble p.page_number q.page_number
  else Nat.blt q.match_count p.match_count

/-- Coverage-counter increment (`variable_coverage[var] += 1`); the counter is
a `defaultdict(int)`, embedded as a total function defaulting to 0. -/
def covInc (cov : String → Nat) (v : String) : String → Nat :=
  fun w => if w = v then cov v + 1 else cov w

/-- Inclusion test of the greedy primary fill (pdf.py lines 197-201): the page
is included when some matched variable is a target whose coverage is still
below `MAX_PER_VARIABLE`. -/
def includeTest (targets : List String) (cov : String → Nat) (p : Page) : Bool :=
  p.matched_variables.any (fun v => targets.contains v && Nat.blt (cov v) MAX_PER_VARIABLE)

/-- Coverage update after including a page in the greedy fill (pdf.py lines
206-208): every matched target variable is incremented once. -/
def coverPage (targets : List String) (cov : String → Nat) (p : Page) : String → Nat :=
  p.matched_variables.foldl (fun c v => if targets.contains v then covInc c v else c) cov

/-- Greedy primary fill of `select_top_pages` (pdf.py lines 193-208): walk the
ranked list, stop once `MAX_TOTAL_PAGES` pages are selected, and include a page
when `includeTest` holds.  The state is (selected pages, selected page
numbers, coverage). -/
def greedyGo (targets : List String) :
    List Page → List Page → List Nat → (String → Nat) →
    List Page × List Nat × (String → Nat)
  | [], sel, nums, cov => (sel, nums, cov)
  | p :: rest, sel, nums, cov =>
    if MAX_TOTAL_PAGES ≤ sel.length then (sel, nums, cov)
    else if includeTest targets cov p then
      greedyGo targets rest (sel ++ [p]) (nums ++ [p.page_number]) (coverPage targets cov p)
    else greedyGo targets rest sel nums cov

/-- Inner backfill scan for one under-covered variable `v` (pdf.py lines
215-223): skip already-selected page numbers, add the next pages matching `v`
(incrementing only `v`'s coverage) and stop as soon as the minimum is met. -/
def backGo (v : String) :
    List Page → List Page → List Nat → (String → Nat) →
    List Page × List Nat × (String → Nat)
  | [], sel, nums, cov => (sel, nums, cov)
  | p :: rest, sel, nums, cov =>
    if nums.contains p.page_number then backGo v rest sel nums cov
    else if p.matched_variables.contains v then
      let cov2 := covInc cov v
      if MIN_REQUIRED_PAGES ≤ cov2 v then (sel ++ [p], nums ++ [p.page_number], cov2)
      else backGo v rest (sel ++ [p]) (nums ++ [p.page_number]) cov2
    else backGo v rest sel nums cov

/-- Coverage backfill of `select_top_pages` (pdf.py lines 211-223): one pass
per requested variable, skipped when the variable already has
`MIN_REQUIRED_PAGES` coverage. -/
def backfill (ranked : List Page) :
    List String → List Page × List Nat × (String → Nat) →
    List Page × List Nat × (String → Nat)
  | [], st => st
  | v :: vs, (sel, nums, cov) =>
    if MIN_REQUIRED_PAGES ≤ cov v then backfill ranked vs (sel, nums, cov)
    else backfill ranked vs (backGo v ranked sel nums cov)

/-- Final ordering of the selection (pdf.py line 225): ascending page number. -/
def pageNumLE (p q : Page) : Bool := Nat.ble p.page_number q.page_number

/-- Step-2 ranking of `select_top_pages` (pdf.py line 187). -/
def rankedPages (page_data : List Page) : List Page := page_data.mergeSort rankLE

/-- State after the greedy primary fill, starting from the empty selection. -/
def greedyState (page_data : List Page) (target_variables : List String) :
    List Page × List Nat × (String → Nat) :=
  greedyGo target_variables (rankedPages page_data) [] [] (fun _ => 0)

/-- State after the coverage backfill. -/
def backfillState (page_data : List Page) (target_variables : List String) :
    List Page × List Nat × (String → Nat) :=
  backfill (rankedPages page_data) target_variables (greedyState page_data target_variables)

/-- Embedding of `PDFExtractor.select_top_pages` (pdf.py lines 171-225),
taking as input the page metadata produced by `extract_variable_page_map`. -/
def select_top_pages (page_data : List Page) (target_variables : List String) : List Page :=
  (backfillState page_data target_variables).1.mergeSort pageNumLE

/-- Page `p` matches variable `v` (membership in the matched-variable set). -/
def pMatch (v : String) (p : Page) : Bool := p.matched_variables.contains v

/-- Pages of `l` matching variable `v`, i.e. coverage of `v` inside `l`. -/
def countT (v : String) (l : List Page) : Nat := l.countP (pMatch v)

/-- Embedding of `_load_cache` (src/src/discovery/yahoo.py lines 39-49 and the
identical src/src/discovery/fetcher.py lines 39-49).  The durable store is an
oracle: `none` means the cache file does not exist, `some (.error ())` means it
exists but `json.load` raises, `some (.ok m)` means it parses to the map `m`.
The result pairs the in-memory cache with the error log entries emitted. -/
def loadCache (stored : Option (Except Unit (List (String × String))))
    : List (String × String) × List String :=
  match stored with
  | none => ([], [])
  | some (.ok cache) => (cache, [])
  | some (.error _) => ([], ["Failed to read cache"])

/-! ## Association-list helper lemmas -/

lemma findEntry_nil (k : String) : findEntry [] k = none := rfl

lemma findEntry_none_iff (m : List (String × ExtractedInfo)) (k : String) :
    findEntry m k = none ↔ ∀ e ∈ m, e.1 ≠ k := by
  unfold findEntry
  cases h : m.find? (fun e => e.1 == k) with
  | none =>
    simp only [true_iff]
    rw [List.find?_eq_none] at h
    intro e he
    have := h e he
    simpa using this
  | some e =>
    simp only [reduceCtorEq, false_iff, not_forall]
    refine ⟨e, List.mem_of_find?_eq_some h, ?_⟩
    have := List.find?_some h
    simpa using this

lemma findEntry_eq_some_mem {m : List (String × ExtractedInfo)} {k : String}
    {v : ExtractedInfo} (h : findEntry m k = some v) : (k, v) ∈ m := by
  unfold findEntry at h
  cases hf : m.find? (fun e => e.1 == k) with
  | none => rw [hf] at h; exact absurd h (by simp)
  | some e =>
    rw [hf] at h
    have hmem := List.mem_of_find?_eq_some hf
    have hp := List.find?_some hf
    have hk : e.1 = k := by simpa using hp
    have hv : e.2 = v := by simpa using h
    have : e = (k, v) := by cases e; simp_all
    rwa [this] at hmem

lemma findEntry_append_last_ne {m : List (String × ExtractedInfo)} {k k2 : String}
    (v : ExtractedInfo) (h : findEntry m k = none) (hne : k2 ≠ k) :
    findEntry (m ++ [(k2, v)]) k = none := by
  rw [findEntry_none_iff] at h ⊢
  intro e he
  rcases List.mem_append.mp he with h1 | h2
  · exact h e h1
  · simp at h2; subst h2; simpa using hne

lemma findEntry_append_last_self {m : List (String × ExtractedInfo)} {k : String}
    (v : ExtractedInfo) (h : findEntry m k = none) :
    findEntry (m ++ [(k, v)]) k = some v := by
  unfold findEntry at h ⊢
  rw [List.find?_append]
  cases hf : m.find? (fun e => e.1 == k) with
  | none => simp [List.find?]
  | some e => rw [hf] at h; exact absurd h (by simp)

lemma findEntry_cons (e : String × ExtractedInfo) (rest : List (String × ExtractedInfo))
    (k : String) :
    findEntry (e :: rest) k = if e.1 = k then some e.2 else findEntry rest k := by
  unfold findEntry
  rw [List.find?_cons]
  by_cases h : e.1 = k
  · simp [h]
  · have hb : (e.1 == k) = false := by simpa using h
    simp [h, hb]

lemma setEntry_cons (e : String × ExtractedInfo) (rest : List (String × ExtractedInfo))
    (k : String) (v : ExtractedInfo) :
    setEntry (e :: rest) k v = (if e.1 = k then (e.1, v) else e) :: setEntry rest k v := by
  unfold setEntry
  by_cases h : e.1 = k <;> simp [h]

lemma findEntry_setEntry_ne {m : List (String × ExtractedInfo)} {k k2 : String}
    (v : ExtractedInfo) (hne : k ≠ k2) :
    findEntry (setEntry m k2 v) k = findEntry m k := by
  induction m with
  | nil => rfl
  | cons e rest ih =>
    rw [setEntry_cons, findEntry_cons, findEntry_cons]
    by_cases he : e.1 = k2
    · have hek : ¬ e.1 = k := fun h => hne (h ▸ he ▸ rfl)
      simp [he, hek, ih, Ne.symm hne]
    · by_cases hek : e.1 = k
      · simp [he, hek, hne, ih]
      · simp [he, hek, ih]

lemma setEntry_fst (m : List (String × ExtractedInfo)) (k : String) (v : ExtractedInfo) :
    (setEntry m k v).map Prod.fst = m.map Prod.fst := by
  induction m with
  | nil => rfl
  | cons e rest ih =>
    rw [setEntry_cons]
    by_cases he : e.1 = k <;> simp [he, ih]

lemma mem_setEntry {m : List (String × ExtractedInfo)} {k : String} {v : ExtractedInfo}
    {e : String × ExtractedInfo} (h : e ∈ setEntry m k v) :
    (e.1 = k ∧ e.2 = v ∧ ∃ w, (k, w) ∈ m) ∨ e ∈ m := by
  unfold setEntry at h
  rcases List.mem_map.mp h with ⟨e0, he0, heq⟩
  by_cases hk : e0.1 = k
  · left
    rw [if_pos (by simpa using hk)] at heq
    subst heq
    exact ⟨hk, rfl, ⟨e0.2, by rw [← hk]; exact he0⟩⟩
  · right
    rw [if_neg (by simpa using hk)] at heq
    subst heq
    exact he0

lemma snd_mem_of_findEntry {m : List (String × ExtractedInfo)} {k : String}
    {v : ExtractedInfo} (h : findEntry m k = some v) : v ∈ m.map Prod.snd := by
  exact List.mem_map.mpr ⟨(k, v), findEntry_eq_some_mem h, rfl⟩

/-! ## Merge: two-fact helper lemmas -/

lemma mergeItem_nil (item : ExtractedInfo) :
    mergeItem [] item = .ok [(item.«variable», item)] := by
  simp [mergeItem, findEntry]

lemma merge_pair (a b : ExtractedInfo) :
    merge_extracted_infos [[a], [b]] =
      match mergeItem [(a.«variable», a)] b with
      | .error e => .error e
      | .ok m => .ok (m.map Prod.snd) := by
  unfold merge_extracted_infos mergeSources mergeList
  rw [mergeItem_nil]
  cases h : mergeItem [(a.«variable», a)] b with
  | error e => simp [mergeSources, mergeList, h]
  | ok m2 => simp [mergeSources, mergeList, h]

lemma findEntry_single_hit (k : String) (v : ExtractedInfo) :
    findEntry [(k, v)] k = some v := by
  simp [findEntry, List.find?]

lemma setEntry_single_hit (k : String) (v w : ExtractedInfo) :
    setEntry [(k, v)] k w = [(k, w)] := by
  simp [setEntry]

/-- C2: in a merge where the EMPLOYEES topic competes, an EMPLOYEES fact whose
source url is a wikipedia url and whose year is at least the 2024 freshness
threshold is selected over a competing EMPLOYEES fact from any other (non
wikipedia) source, in both input orders, regardless of the competitor's
year. -/
theorem merge_employees_wikipedia_precedence
    (w o : ExtractedInfo) (wsu osu : String) (wy : Nat)
    (hwv : w.«variable» = "EMPLOYEES") (hov : o.«variable» = "EMPLOYEES")
    (hwsu : w.source_url = some wsu) (hwiki : strHasSub wsu "wikipedia" = true)
    (hwy : w.year = some wy) (hfresh : 2024 ≤ wy)
    (hosu : o.source_url = some osu) (hnot : strHasSub osu "wikipedia" = false) :
    merge_extracted_infos [[w], [o]] = .ok [w] ∧
    merge_extracted_infos [[o], [w]] = .ok [w] := by
  have hOther : wikiFreshCheck osu o.year = false := by
    simp [wikiFreshCheck, hnot]
  have hWiki : wikiFreshCheck wsu w.year = true := by
    simp [wikiFreshCheck, hwiki, hwy, truthyYear]
    omega
  constructor
  · rw [merge_pair]
    have : mergeItem [(w.«variable», w)] o = .ok [("EMPLOYEES", w)] := by
      rw [hwv]
      simp only [mergeItem, hov, findEntry_single_hit, if_pos rfl]
      rw [show employeesRule w o = .ok (some w) by
        simp only [employeesRule, hosu, hOther, hwsu, hWiki]
        simp]
      simp [setEntry_single_hit]
    rw [this]
    simp
  · rw [merge_pair]
    have : mergeItem [(o.«variable», o)] w = .ok [("EMPLOYEES", w)] := by
      rw [hov]
      simp only [mergeItem, hwv, findEntry_single_hit, if_pos rfl]
      rw [show employeesRule o w = .ok (some w) by
        simp only [employeesRule, hwsu, hWiki]
        simp]
      simp [setEntry_single_hit]
    rw [this]
    simp

def wExample : ExtractedInfo :=
  { mne_id := 1, mne_name := "ACME", «variable» := "EMPLOYEES",
    source_url := some "https://en.wikipedia.org/wiki/ACME", value := 500,
    currency := some "N/A", year := some 2024 }

def oExample : ExtractedInfo :=
  { mne_id := 1, mne_name := "ACME", «variable» := "EMPLOYEES",
    source_url := some "https://finance.example.com/ACME", value := 480,
    currency := some "N/A", year := some 2024 }

/-- Witness for C2: the spec's end-to-end scenario B, both input orders. -/
theorem merge_employees_wikipedia_precedence_witness :
    merge_extracted_infos [[wExample], [oExample]] = .ok [wExample] ∧
    merge_extracted_infos [[oExample], [wExample]] = .ok [wExample] :=
  merge_employees_wikipedia_precedence wExample oExample
    "https://en.wikipedia.org/wiki/ACME" "https://finance.example.com/ACME" 2024
    rfl rfl rfl (by decide) rfl (by decide) rfl (by decide)

lemma mergeItem_pair_default (first second : ExtractedInfo)
    (hv : second.«variable» = first.«variable»)
    (hexc : first.«variable» ≠ "EMPLOYEES" ∨
      (∃ s1 s2, first.source_url = some s1 ∧ second.source_url = some s2 ∧
        wikiFreshCheck s1 first.year = false ∧ wikiFreshCheck s2 second.year = false)) :
    mergeItem [(first.«variable», first)] second =
      .ok [(first.«variable», defaultMergeChoice first second)] := by
  by_cases hk : first.«variable» = "EMPLOYEES"
  · rcases hexc with h | ⟨s1, s2, hs1, hs2, hf1, hf2⟩
    · exact absurd hk h
    · simp only [mergeItem, hv, findEntry_single_hit, hk, if_pos rfl]
      rw [show employeesRule first second = .ok none by
        simp only [employeesRule, hs1, hs2, hf1, hf2]
        simp]
      simp [setEntry_single_hit]
  · simp only [mergeItem, hv, findEntry_single_hit]
    rw [if_neg hk]
    simp [setEntry_single_hit]

/-- The EMPLOYEES/encyclopedia exception of `merge_extracted_infos` does not
apply to the pair `a`, `b`: either the topic is not EMPLOYEES, or both facts
carry a source url and neither url passes the wikipedia-freshness test. -/
def noEmployeesException (a b : ExtractedInfo) : Prop :=
  a.«variable» ≠ "EMPLOYEES" ∨
  (∃ sa sb, a.source_url = some sa ∧ b.source_url = some sb ∧
     wikiFreshCheck sa a.year = false ∧ wikiFreshCheck sb b.year = false)

/-- C1: the general merging rule of `merge_extracted_infos` for a topic that
competes between two inputs, when the EMPLOYEES/encyclopedia exception does
not apply: the fact with the strictly greater year wins in either input
order; on equal years the fact from the earlier input argument wins; and when
exactly one fact has a (nonzero) year, that fact wins in either order. -/
theorem merge_year_recency_rule (a b : ExtractedInfo)
    (hv : a.«variable» = b.«variable») (hexc : noEmployeesException a b) :
    (∀ ya yb, a.year = some ya → b.year = some yb → ya < yb →
       merge_extracted_infos [[a], [b]] = .ok [b] ∧
       merge_extracted_infos [[b], [a]] = .ok [b]) ∧
    (∀ y, a.year = some y → b.year = some y →
       merge_extracted_infos [[a], [b]] = .ok [a] ∧
       merge_extracted_infos [[b], [a]] = .ok [b]) ∧
    (∀ y, 0 < y → a.year = some y → b.year = none →
       merge_extracted_infos [[a], [b]] = .ok [a] ∧
       merge_extracted_infos [[b], [a]] = .ok [a]) := by
  have hab : mergeItem [(a.«variable», a)] b = .ok [(a.«variable», defaultMergeChoice a b)] :=
    mergeItem_pair_default a b hv.symm (by
      rcases hexc with h | ⟨sa, sb, h1, h2, h3, h4⟩
      · exact Or.inl h
      · exact Or.inr ⟨sa, sb, h1, h2, h3, h4⟩)
  have hba : mergeItem [(b.«variable», b)] a = .ok [(b.«variable», defaultMergeChoice b a)] :=
    mergeItem_pair_default b a hv (by
      rcases hexc with h | ⟨sa, sb, h1, h2, h3, h4⟩
      · exact Or.inl (hv ▸ h)
      · exact Or.inr ⟨sb, sa, h2, h1, h4, h3⟩)
  have pab : merge_extracted_infos [[a], [b]] = .ok [defaultMergeChoice a b] := by
    rw [merge_pair, hab]; simp
  have pba : merge_extracted_infos [[b], [a]] = .ok [defaultMergeChoice b a] := by
    rw [merge_pair, hba]; simp
  refine ⟨?_, ?_, ?_⟩
  · intro ya yb hya hyb hlt
    constructor
    · rw [pab]
      have : defaultMergeChoice a b = b := by
        simp only [defaultMergeChoice, hya, hyb]
        rw [if_pos ⟨by omega, hlt⟩]
      rw [this]
    · rw [pba]
      have : defaultMergeChoice b a = b := by
        simp only [defaultMergeChoice, hya, hyb]
        rw [if_neg (by omega)]
      rw [this]
  · intro y hya hyb
    constructor
    · rw [pab]
      have : defaultMergeChoice a b = a := by
        simp only [defaultMergeChoice, hya, hyb]
        rw [if_neg (by omega)]
      rw [this]
    · rw [pba]
      have : defaultMergeChoice b a = b := by
        simp only [defaultMergeChoice, hya, hyb]
        rw [if_neg (by omega)]
      rw [this]
  · intro y hpos hya hyb
    constructor
    · rw [pab]
      have : defaultMergeChoice a b = a := by
        simp only [defaultMergeChoice, hya, hyb]
      rw [this]
    · rw [pba]
      have : defaultMergeChoice b a = a := by
        simp only [defaultMergeChoice, hya, hyb]
        rw [if_pos (by omega)]
      rw [this]

def turnA : ExtractedInfo :=
  { mne_id := 1, mne_name := "ACME", «variable» := "TURNOVER",
    source_url := some "https://en.wikipedia.org/wiki/ACME", value := 100,
    currency := some "EUR", year := some 2023 }

def turnB : ExtractedInfo :=
  { mne_id := 1, mne_name := "ACME", «variable» := "TURNOVER",
    source_url := some "https://finance.example.com/ACME", value := 120,
    currency := some "EUR", year := some 2024 }

/-- Witness for C1: the spec's end-to-end scenario A — TURNOVER 2023 vs 2024,
the 2024 fact wins in both input orders. -/
theorem merge_year_recency_rule_witness :
    merge_extracted_infos [[turnA], [turnB]] = .ok [turnB] ∧
    merge_extracted_infos [[turnB], [turnA]] = .ok [turnB] :=
  (merge_year_recency_rule turnA turnB rfl (Or.inl (by decide))).1
    2023 2024 rfl rfl (by decide)

/-- C6: the retrying web search.  When the first lookup fails and the second
lookup, made with a `User-Agent` drawn from the fixed pool, succeeds with raw
results `rs`, `search` returns `rs` mapped to `SearchResult` without surfacing
the first failure; when both lookups fail it returns the empty list instead of
an exception. -/
theorem ddg_search_retry
    (fetch : Option String → Except Unit (List RawResult)) (pick : Nat) :
    (∀ rs, fetch none = .error () →
       fetch (some (pickAgent pick)) = .ok rs →
       ddgSearch fetch pick = rs.map toSearchResult) ∧
    (fetch none = .error () →
       fetch (some (pickAgent pick)) = .error () →
       ddgSearch fetch pick = []) := by
  constructor
  · intro rs h1 h2
    cases rs with
    | nil => simp [ddgSearch, h1, h2, ddgFinish]
    | cons r rest => simp [ddgSearch, h1, h2, ddgFinish]
  · intro h1 h2
    simp [ddgSearch, h1, h2]

def rawExample : RawResult :=
  { href := "https://example.com/report.pdf", title := "Annual report",
    body := "ACME annual report 2024" }

def fetchExample : Option String → Except Unit (List RawResult) :=
  fun o => match o with
  | none => .error ()
  | some _ => .ok [rawExample]

def fetchFailExample : Option String → Except Unit (List RawResult) :=
  fun _ => .error ()

/-- Witness for C6: a source that fails once then succeeds, and a source that
always fails. -/
theorem ddg_search_retry_witness :
    ddgSearch fetchExample 0 = [toSearchResult rawExample] ∧
    ddgSearch fetchFailExample 0 = [] :=
  ⟨(ddg_search_retry fetchExample 0).1 [rawExample] rfl rfl,
   (ddg_search_retry fetchFailExample 0).2 rfl rfl⟩

/-- C9: when the persisted cache file exists but cannot be parsed, the loader
returns the empty in-memory cache together with a logged error, rather than
propagating the parse failure (the embedding is a total function, so no
exception escapes). -/
theorem load_cache_corrupt_recovers :
    (loadCache (some (.error ()))).1 = [] ∧ (loadCache (some (.error ()))).2 ≠ [] := by
  constructor
  · rfl
  · simp [loadCache]

/-! ## Merge: structural lemmas for arbitrary states -/

lemma findEntry_append_last {m : List (String × ExtractedInfo)} {k k2 : String}
    (v : ExtractedInfo) (hne : k2 ≠ k) :
    findEntry (m ++ [(k2, v)]) k = findEntry m k := by
  unfold findEntry
  rw [List.find?_append]
  cases hf : m.find? (fun e => e.1 == k) with
  | none =>
    have hb : (k2 == k) = false := by simpa using hne
    simp [List.find?, hb]
  | some e => simp

lemma mergeItem_fresh {m : List (String × ExtractedInfo)} {item : ExtractedInfo}
    (h : findEntry m item.«variable» = none) :
    mergeItem m item = .ok (m ++ [(item.«variable», item)]) := by
  simp [mergeItem, h]

lemma defaultMergeChoice_cases (current item : ExtractedInfo) :
    defaultMergeChoice current item = current ∨ defaultMergeChoice current item = item := by
  unfold defaultMergeChoice
  split
  · split
    · exact Or.inr rfl
    · exact Or.inl rfl
  · split
    · exact Or.inr rfl
    · exact Or.inl rfl
  · exact Or.inl rfl

lemma employeesRule_ok {current item : ExtractedInfo} {csu isu : String}
    (hc : current.source_url = some csu) (hi : item.source_url = some isu) :
    ∃ oc, employeesRule current item = .ok oc := by
  unfold employeesRule
  rw [hi, hc]
  by_cases f1 : wikiFreshCheck isu item.year
  · exact ⟨some item, by simp [f1]⟩
  · by_cases f2 : wikiFreshCheck csu current.year
    · exact ⟨some current, by simp [f1, f2]⟩
    · exact ⟨none, by simp [f1, f2]⟩

lemma employeesRule_result {current item : ExtractedInfo} {oc : Option ExtractedInfo}
    (h : employeesRule current item = .ok oc) :
    oc = some item ∨ oc = some current ∨ oc = none := by
  unfold employeesRule at h
  split at h
  · cases h
  · split at h
    · exact Or.inl (by injection h with h2; exact h2.symm)
    · split at h
      · cases h
      · split at h
        · exact Or.inr (Or.inl (by injection h with h2; exact h2.symm))
        · exact Or.inr (Or.inr (by injection h with h2; exact h2.symm))

lemma mergeItem_result {m m2 : List (String × ExtractedInfo)} {item : ExtractedInfo}
    (h : mergeItem m item = .ok m2) :
    (findEntry m item.«variable» = none ∧ m2 = m ++ [(item.«variable», item)]) ∨
    (∃ current chosen, findEntry m item.«variable» = some current ∧
       (chosen = current ∨ chosen = item) ∧ m2 = setEntry m item.«variable» chosen) := by
  cases hf : findEntry m item.«variable» with
  | none =>
    rw [mergeItem_fresh hf] at h
    exact Or.inl ⟨rfl, by injection h with h2; exact h2.symm⟩
  | some current =>
    right
    refine ⟨current, ?_⟩
    simp only [mergeItem, hf] at h
    by_cases hk : item.«variable» = "EMPLOYEES"
    · rw [if_pos hk] at h
      cases hr : employeesRule current item with
      | error e => rw [hr] at h; cases h
      | ok oc =>
        rw [hr] at h
        cases oc with
        | some chosen =>
          refine ⟨chosen, rfl, ?_, by injection h with h2; exact h2.symm⟩
          rcases employeesRule_result hr with h1 | h1 | h1
          · exact Or.inr (Option.some.inj h1)
          · exact Or.inl (Option.some.inj h1)
          · cases h1
        | none =>
          refine ⟨defaultMergeChoice current item, rfl, ?_, by injection h with h2; exact h2.symm⟩
          exact defaultMergeChoice_cases current item
    · rw [if_neg hk] at h
      exact ⟨defaultMergeChoice current item, rfl, defaultMergeChoice_cases current item,
        by injection h with h2; exact h2.symm⟩

lemma mergeItem_findEntry_other {m m2 : List (String × ExtractedInfo)}
    {item : ExtractedInfo} {T : String}
    (hne : item.«variable» ≠ T) (h : mergeItem m item = .ok m2) :
    findEntry m2 T = findEntry m T := by
  rcases mergeItem_result h with ⟨_, rfl⟩ | ⟨current, chosen, _, _, rfl⟩
  · exact findEntry_append_last item hne
  · exact findEntry_setEntry_ne chosen (fun hh => hne hh.symm)

lemma mergeList_findEntry_other {items : List ExtractedInfo} {T : String} :
    ∀ {m m2 : List (String × ExtractedInfo)},
    (∀ g ∈ items, g.«variable» ≠ T) → mergeList m items = .ok m2 →
    findEntry m2 T = findEntry m T := by
  induction items with
  | nil => intro m m2 _ h; injection h with h2; rw [h2]
  | cons x rest ih =>
    intro m m2 hall h
    unfold mergeList at h
    cases hmi : mergeItem m x with
    | error e => rw [hmi] at h; cases h
    | ok m1 =>
      rw [hmi] at h
      have h1 := mergeItem_findEntry_other (hall x (by simp)) hmi
      have h2 := ih (fun g hg => hall g (by simp [hg])) h
      rw [h2, h1]

lemma mergeList_append (m : List (String × ExtractedInfo)) (xs ys : List ExtractedInfo) :
    mergeList m (xs ++ ys) =
      match mergeList m xs with
      | .error e => .error e
      | .ok m2 => mergeList m2 ys := by
  induction xs generalizing m with
  | nil => simp [mergeList]
  | cons x rest ih =>
    simp only [List.cons_append]
    cases hmi : mergeItem m x with
    | error e =>
      rw [show mergeList m (x :: (rest ++ ys)) = .error e by simp [mergeList, hmi],
          show mergeList m (x :: rest) = .error e by simp [mergeList, hmi]]
    | ok m1 =>
      rw [show mergeList m (x :: (rest ++ ys)) = mergeList m1 (rest ++ ys) by
            simp [mergeList, hmi],
          show mergeList m (x :: rest) = mergeList m1 rest by simp [mergeList, hmi]]
      exact ih m1

lemma mergeSources_eq_flatten (sources : List (List ExtractedInfo))
    (m : List (String × ExtractedInfo)) :
    mergeSources m sources = mergeList m sources.flatten := by
  induction sources generalizing m with
  | nil => rfl
  | cons src rest ih =>
    rw [List.flatten_cons, mergeList_append]
    unfold mergeSources
    cases mergeList m src with
    | error e => rfl
    | ok m2 => exact ih m2

lemma mergeList_unique {T : String} {f : ExtractedInfo} :
    ∀ {items : List ExtractedInfo} {m m2 : List (String × ExtractedInfo)},
    items.filter (fun g => g.«variable» == T) = [f] →
    findEntry m T = none → mergeList m items = .ok m2 →
    findEntry m2 T = some f := by
  intro items
  induction items with
  | nil => intro m m2 hfil _ _; simp at hfil
  | cons x rest ih =>
    intro m m2 hfil hnone h
    by_cases hx : x.«variable» = T
    · rw [List.filter_cons, if_pos (by simpa using hx)] at hfil
      have hxf : x = f := by injection hfil
      have hrest : rest.filter (fun g => g.«variable» == T) = [] := by
        injection hfil
      have hall : ∀ g ∈ rest, g.«variable» ≠ T := by
        intro g hg
        have := List.filter_eq_nil_iff.mp hrest g hg
        simpa using this
      unfold mergeList at h
      rw [mergeItem_fresh (by rw [hx]; exact hnone)] at h
      have := mergeList_findEntry_other hall h
      rw [this, hx, findEntry_append_last_self x hnone, hxf]
    · rw [List.filter_cons, if_neg (by simpa using hx)] at hfil
      unfold mergeList at h
      cases hmi : mergeItem m x with
      | error e => rw [hmi] at h; cases h
      | ok m1 =>
        rw [hmi] at h
        have h1 := mergeItem_findEntry_other hx hmi
        exact ih hfil (h1.trans hnone) h

/-- C7: a topic that occurs in exactly one fact across the merge inputs is
returned unchanged (structurally equal to the input fact) whenever the merge
returns. -/
theorem merge_single_topic_unchanged
    (sources : List (List ExtractedInfo)) (T : String) (f : ExtractedInfo)
    (out : List ExtractedInfo)
    (hone : sources.flatten.filter (fun g => g.«variable» == T) = [f])
    (hok : merge_extracted_infos sources = .ok out) :
    f ∈ out := by
  unfold merge_extracted_infos at hok
  cases hms : mergeSources [] sources with
  | error e => rw [hms] at hok; cases hok
  | ok m =>
    rw [hms] at hok
    have hout : m.map Prod.snd = out := by injection hok
    rw [mergeSources_eq_flatten] at hms
    have := mergeList_unique hone (findEntry_nil T) hms
    exact hout ▸ snd_mem_of_findEntry this

/-- Witness for C7: TURNOVER occurs exactly once across the two inputs and is
returned unchanged. -/
theorem merge_single_topic_unchanged_witness :
    turnA ∈ ([turnA, wExample] : List ExtractedInfo) :=
  merge_single_topic_unchanged [[turnA], [wExample]] "TURNOVER" turnA
    [turnA, wExample] (by decide) rfl

/-! ## Merge: totality under the EMPLOYEES source-url precondition -/

/-- Invariant of the merge state: every stored entry is keyed by its fact's
topic, and every EMPLOYEES entry carries a source url. -/
def wfState (m : List (String × ExtractedInfo)) : Prop :=
  ∀ e ∈ m, e.2.«variable» = e.1 ∧ (e.1 = "EMPLOYEES" → e.2.source_url ≠ none)

lemma wfState_setEntry {m : List (String × ExtractedInfo)} {k : String}
    {chosen : ExtractedInfo} (hm : wfState m) (hv : chosen.«variable» = k)
    (hu : k = "EMPLOYEES" → chosen.source_url ≠ none) :
    wfState (setEntry m k chosen) := by
  intro e he
  rcases mem_setEntry he with ⟨h1, h2, _⟩ | hmem
  · exact ⟨by rw [h2, h1, hv], fun hk => by rw [h2]; exact hu (h1 ▸ hk)⟩
  · exact hm e hmem

lemma mergeItem_isOk {m : List (String × ExtractedInfo)} {item : ExtractedInfo}
    (hm : wfState m) (hit : item.«variable» = "EMPLOYEES" → item.source_url ≠ none) :
    ∃ m2, mergeItem m item = .ok m2 := by
  cases hf : findEntry m item.«variable» with
  | none => exact ⟨_, mergeItem_fresh hf⟩
  | some current =>
    by_cases hk : item.«variable» = "EMPLOYEES"
    · have hcur := hm (item.«variable», current) (findEntry_eq_some_mem hf)
      obtain ⟨isu, hisu⟩ : ∃ s, item.source_url = some s := by
        cases hiu : item.source_url
        · exact absurd hiu (hit hk)
        · exact ⟨_, rfl⟩
      obtain ⟨csu, hcsu⟩ : ∃ s, current.source_url = some s := by
        cases hcu : current.source_url
        · exact absurd hcu (hcur.2 hk)
        · exact ⟨_, rfl⟩
      obtain ⟨oc, hoc⟩ := employeesRule_ok hcsu hisu
      cases oc with
      | some chosen =>
        exact ⟨setEntry m item.«variable» chosen,
          by simp only [mergeItem, hf, if_pos hk, hoc]⟩
      | none =>
        exact ⟨setEntry m item.«variable» (defaultMergeChoice current item),
          by simp only [mergeItem, hf, if_pos hk, hoc]⟩
    · exact ⟨setEntry m item.«variable» (defaultMergeChoice current item),
        by simp only [mergeItem, hf, if_neg hk]⟩

lemma mergeItem_wf {m m2 : List (String × ExtractedInfo)} {item : ExtractedInfo}
    (hm : wfState m) (hit : item.«variable» = "EMPLOYEES" → item.source_url ≠ none)
    (h : mergeItem m item = .ok m2) : wfState m2 := by
  rcases mergeItem_result h with ⟨_, rfl⟩ | ⟨current, chosen, hf, hch, rfl⟩
  · intro e he
    rcases List.mem_append.mp he with h1 | h2
    · exact hm e h1
    · simp only [List.mem_singleton] at h2
      subst h2
      exact ⟨rfl, fun hk => hit hk⟩
  · have hcur := hm (item.«variable», current) (findEntry_eq_some_mem hf)
    rcases hch with rfl | rfl
    · exact wfState_setEntry hm hcur.1 hcur.2
    · exact wfState_setEntry hm rfl hit

lemma mergeList_total :
    ∀ {items : List ExtractedInfo} {m : List (String × ExtractedInfo)},
    wfState m → (∀ g ∈ items, g.«variable» = "EMPLOYEES" → g.source_url ≠ none) →
    ∃ m2, mergeList m items = .ok m2 ∧ wfState m2 := by
  intro items
  induction items with
  | nil => intro m hm _; exact ⟨m, rfl, hm⟩
  | cons x rest ih =>
    intro m hm hall
    obtain ⟨m1, h1⟩ := mergeItem_isOk hm (hall x (by simp))
    have hw1 := mergeItem_wf hm (hall x (by simp)) h1
    obtain ⟨m2, h2, hw2⟩ := ih hw1 (fun g hg hg2 => hall g (by simp [hg]) hg2)
    refine ⟨m2, ?_, hw2⟩
    rw [show mergeList m (x :: rest) = mergeList m1 rest by simp [mergeList, h1]]
    exact h2

def empWithUrl : ExtractedInfo :=
  { mne_id := 2, mne_name := "ACME", «variable» := "EMPLOYEES",
    source_url := some "https://finance.example.com/ACME", value := 480,
    currency := some "N/A", year := some 2023 }

def empNoUrl : ExtractedInfo :=
  { mne_id := 2, mne_name := "ACME", «variable» := "EMPLOYEES",
    source_url := none, value := 500,
    currency := some "N/A", year := some 2024 }

/-- C10: `merge_extracted_infos` returns a merged list (no exception) whenever
every EMPLOYEES fact among its inputs carries a source url, and on a concrete
input in which two EMPLOYEES facts compete and one of them has no source url,
the substring membership test raises (the embedding returns `.error ()`). -/
theorem merge_employees_source_url_safety :
    (∀ sources : List (List ExtractedInfo),
       (∀ f ∈ sources.flatten, f.«variable» = "EMPLOYEES" → f.source_url ≠ none) →
       (merge_extracted_infos sources).isOk = true) ∧
    merge_extracted_infos [[empWithUrl], [empNoUrl]] = .error () := by
  constructor
  · intro sources hall
    unfold merge_extracted_infos
    rw [mergeSources_eq_flatten]
    obtain ⟨m2, h2, _⟩ :=
      mergeList_total (by intro e he; exact absurd he (List.not_mem_nil e)) hall
    rw [h2]
    rfl
  · rfl

/-- Witness for C10: both EMPLOYEES facts carry a source url, so the merge
returns. -/
theorem merge_employees_source_url_safety_witness :
    (merge_extracted_infos [[wExample], [oExample]]).isOk = true :=
  merge_employees_source_url_safety.1 [[wExample], [oExample]] (by decide)

/-! ## Deduplication: idempotence -/

/-- Invariant of the dedup state: entries are keyed by their fact's topic and
keys are pairwise distinct. -/
def dedupInv (m : List (String × ExtractedInfo)) : Prop :=
  (∀ e ∈ m, e.2.«variable» = e.1) ∧ (m.map Prod.fst).Nodup

lemma dedupStep_fresh {m : List (String × ExtractedInfo)} {item : ExtractedInfo}
    (h : findEntry m item.«variable» = none) :
    dedupStep m item = .ok (m ++ [(item.«variable», item)]) := by
  simp [dedupStep, h]

lemma dedupStep_result {m m2 : List (String × ExtractedInfo)} {item : ExtractedInfo}
    (h : dedupStep m item = .ok m2) :
    (findEntry m item.«variable» = none ∧ m2 = m ++ [(item.«variable», item)]) ∨
    m2 = setEntry m item.«variable» item ∨ m2 = m := by
  unfold dedupStep at h
  split at h
  · exact Or.inl ⟨by assumption, by injection h with h2; exact h2.symm⟩
  · split at h
    · split at h
      · exact Or.inr (Or.inl (by injection h with h2; exact h2.symm))
      · exact Or.inr (Or.inr (by injection h with h2; exact h2.symm))
    · cases h

lemma dedupInv_append {m : List (String × ExtractedInfo)} {item : ExtractedInfo}
    (hm : dedupInv m) (h : findEntry m item.«variable» = none) :
    dedupInv (m ++ [(item.«variable», item)]) := by
  constructor
  · intro e he
    rcases List.mem_append.mp he with h1 | h2
    · exact hm.1 e h1
    · simp only [List.mem_singleton] at h2; subst h2; rfl
  · rw [List.map_append, List.nodup_append]
    refine ⟨hm.2, by simp, ?_⟩
    intro k hk1 hk2
    simp only [List.map_cons, List.map_nil, List.mem_singleton] at hk2
    subst hk2
    rw [findEntry_none_iff] at h
    rcases List.mem_map.mp hk1 with ⟨e, he, hek⟩
    exact h e he hek

lemma dedupLoop_inv :
    ∀ {xs : List ExtractedInfo} {m m2 : List (String × ExtractedInfo)},
    dedupInv m → dedupLoop m xs = .ok m2 → dedupInv m2 := by
  intro xs
  induction xs with
  | nil => intro m m2 hm h; injection h with h2; rwa [← h2]
  | cons x rest ih =>
    intro m m2 hm h
    unfold dedupLoop at h
    cases hs : dedupStep m x with
    | error e => rw [hs] at h; cases h
    | ok m1 =>
      rw [hs] at h
      refine ih ?_ h
      rcases dedupStep_result hs with ⟨hf, rfl⟩ | rfl | rfl
      · exact dedupInv_append hm hf
      · constructor
        · intro e he
          rcases mem_setEntry he with ⟨h1, h2, _⟩ | hmem
          · rw [h2, h1]
          · exact hm.1 e hmem
        · rw [setEntry_fst]; exact hm.2
      · exact hm

lemma dedupLoop_fresh :
    ∀ {ys : List ExtractedInfo} {m : List (String × ExtractedInfo)},
    (∀ g ∈ ys, findEntry m g.«variable» = none) →
    List.Pairwise (fun a b : ExtractedInfo => a.«variable» ≠ b.«variable») ys →
    dedupLoop m ys = .ok (m ++ ys.map (fun g => (g.«variable», g))) := by
  intro ys
  induction ys with
  | nil => intro m _ _; simp [dedupLoop]
  | cons g rest ih =>
    intro m habs hpw
    have h1 : findEntry m g.«variable» = none := habs g (by simp)
    rw [show dedupLoop m (g :: rest) = dedupLoop (m ++ [(g.«variable», g)]) rest by
      simp [dedupLoop, dedupStep_fresh h1]]
    have hpw2 := List.pairwise_cons.mp hpw
    rw [ih ?_ hpw2.2]
    · simp
    · intro g' hg'
      rw [findEntry_append_last g (hpw2.1 g' hg')]
      exact habs g' (by simp [hg'])

/-- C5: `deduplicate_by_latest_year` is idempotent — whenever it returns a
list `ys`, applying it to `ys` returns `ys` again (and in particular does not
raise). -/
theorem dedup_idempotent (xs ys : List ExtractedInfo)
    (h : deduplicate_by_latest_year xs = .ok ys) :
    deduplicate_by_latest_year ys = .ok ys := by
  unfold deduplicate_by_latest_year at h ⊢
  cases hl : dedupLoop [] xs with
  | error e => rw [hl] at h; cases h
  | ok m =>
    rw [hl] at h
    have hys : m.map Prod.snd = ys := by injection h
    have hinv : dedupInv m :=
      dedupLoop_inv ⟨fun e he => absurd he (List.not_mem_nil e), by simp⟩ hl
    have hpairs : List.Pairwise (fun e e' : String × ExtractedInfo => e.1 ≠ e'.1) m :=
      List.pairwise_map.mp hinv.2
    have hvars : List.Pairwise (fun a b : ExtractedInfo => a.«variable» ≠ b.«variable») ys := by
      rw [← hys]
      rw [List.pairwise_map]
      refine hpairs.imp_of_mem ?_
      intro e e' he he' hne
      rw [hinv.1 e he, hinv.1 e' he']
      exact hne
    rw [dedupLoop_fresh (fun g _ => findEntry_nil g.«variable») hvars]
    have : (ys.map (fun g => (g.«variable», g))).map Prod.snd = ys := by
      rw [List.map_map]
      exact List.map_id ys
    simp only [List.nil_append, this]

/-- Witness for C5: deduplicating TURNOVER facts from 2023 and 2024 keeps the
2024 fact, and a second application returns the same list. -/
theorem dedup_idempotent_witness :
    deduplicate_by_latest_year [turnB] = .ok [turnB] :=
  dedup_idempotent [turnA, turnB] [turnB] rfl

/-! ## Page selection: the global cap -/

lemma greedyGo_length (targets : List String) :
    ∀ (l sel : List Page) (nums : List Nat) (cov : String → Nat),
    sel.length ≤ MAX_TOTAL_PAGES →
    (greedyGo targets l sel nums cov).1.length ≤ MAX_TOTAL_PAGES := by
  intro l
  induction l with
  | nil => intro sel nums cov h; exact h
  | cons p rest ih =>
    intro sel nums cov h
    unfold greedyGo
    by_cases hmax : MAX_TOTAL_PAGES ≤ sel.length
    · rw [if_pos hmax]; exact h
    · rw [if_neg hmax]
      by_cases hinc : includeTest targets cov p
      · rw [if_pos hinc]
        refine ih _ _ _ ?_
        simp only [List.length_append, List.length_singleton]
        omega
      · rw [if_neg hinc]
        exact ih _ _ _ h

lemma backGo_append (v : String) :
    ∀ (l sel : List Page) (nums : List Nat) (cov : String → Nat),
    ∃ extra, (backGo v l sel nums cov).1 = sel ++ extra := by
  intro l
  induction l with
  | nil => intro sel nums cov; exact ⟨[], by simp [backGo]⟩
  | cons p rest ih =>
    intro sel nums cov
    unfold backGo
    by_cases h1 : nums.contains p.page_number
    · rw [if_pos h1]; exact ih sel nums cov
    · rw [if_neg h1]
      by_cases h2 : p.matched_variables.contains v
      · rw [if_pos h2]
        by_cases h3 : MIN_REQUIRED_PAGES ≤ covInc cov v v
        · rw [if_pos h3]
          exact ⟨[p], rfl⟩
        · rw [if_neg h3]
          obtain ⟨extra, hex⟩ := ih (sel ++ [p]) (nums ++ [p.page_number]) (covInc cov v)
          exact ⟨[p] ++ extra, by rw [hex, List.append_assoc]⟩
      · rw [if_neg h2]; exact ih sel nums cov

lemma backfill_append (ranked : List Page) :
    ∀ (vs : List String) (st : List Page × List Nat × (String → Nat)),
    ∃ extra, (backfill ranked vs st).1 = st.1 ++ extra := by
  intro vs
  induction vs with
  | nil => intro st; exact ⟨[], by simp [backfill]⟩
  | cons v rest ih =>
    intro st
    obtain ⟨sel, nums, cov⟩ := st
    unfold backfill
    by_cases h1 : MIN_REQUIRED_PAGES ≤ cov v
    · rw [if_pos h1]; exact ih (sel, nums, cov)
    · rw [if_neg h1]
      obtain ⟨e1, he1⟩ := backGo_append v ranked sel nums cov
      obtain ⟨e2, he2⟩ := ih (backGo v ranked sel nums cov)
      exact ⟨e1 ++ e2, by rw [he2, he1, List.append_assoc]⟩

/-- C4: the greedy primary fill of `select_top_pages` never selects more than
the global maximum of 10 pages, and the final selection can exceed that
maximum only when the minimum-coverage backfill added pages on top of the
greedy selection. -/
theorem select_top_pages_global_cap (page_data : List Page) (targets : List String) :
    (greedyState page_data targets).1.length ≤ MAX_TOTAL_PAGES ∧
    ((select_top_pages page_data targets).length ≤ MAX_TOTAL_PAGES ∨
      (greedyState page_data targets).1.length < (backfillState page_data targets).1.length) := by
  have hg : (greedyState page_data targets).1.length ≤ MAX_TOTAL_PAGES :=
    greedyGo_length targets (rankedPages page_data) [] [] (fun _ => 0) (by simp)
  refine ⟨hg, ?_⟩
  have hlen : (select_top_pages page_data targets).length =
      (backfillState page_data targets).1.length :=
    (List.mergeSort_perm (backfillState page_data targets).1 pageNumLE).length_eq
  obtain ⟨extra, hex⟩ :=
    backfill_append (rankedPages page_data) targets (greedyState page_data targets)
  unfold backfillState at hlen ⊢
  rw [hex] at hlen ⊢
  by_cases hsmall : (select_top_pages page_data targets).length ≤ MAX_TOTAL_PAGES
  · exact Or.inl hsmall
  · right
    rw [List.length_append] at hlen ⊢
    omega

/-! ## Page selection: minimum coverage -/

lemma contains_iff_mem {α : Type} [BEq α] [LawfulBEq α] {l : List α} {a : α} :
    l.contains a = true ↔ a ∈ l := List.elem_iff

lemma covInc_self (cov : String → Nat) (v : String) : covInc cov v v = cov v + 1 := by
  simp [covInc]

lemma covInc_other (cov : String → Nat) (v w : String) (h : w ≠ v) :
    covInc cov v w = cov w := by
  simp [covInc, h]

lemma countT_append (v : String) (l1 l2 : List Page) :
    countT v (l1 ++ l2) = countT v l1 + countT v l2 := List.countP_append _ _ _

lemma countT_singleton (v : String) (p : Page) :
    countT v [p] = if p.matched_variables.contains v then 1 else 0 := by
  simp [countT, List.countP_cons, pMatch]

lemma foldl_cover_notmem (targets : List String) :
    ∀ (L : List String) (cov : String → Nat) (v : String), v ∉ L →
    L.foldl (fun c w => if targets.contains w then covInc c w else c) cov v = cov v := by
  intro L
  induction L with
  | nil => intro cov v _; rfl
  | cons w rest ih =>
    intro cov v hv
    have hvw : v ≠ w := by intro h; exact hv (h ▸ List.mem_cons_self w rest)
    simp only [List.foldl_cons]
    rw [ih _ v (fun h => hv (List.mem_cons_of_mem w h))]
    by_cases ht : targets.contains w
    · simp only [if_pos ht]
      exact covInc_other cov w v hvw
    · simp only [if_neg ht]

lemma foldl_cover_eval (targets : List String) :
    ∀ (L : List String) (cov : String → Nat) (v : String), L.Nodup →
    L.foldl (fun c w => if targets.contains w then covInc c w else c) cov v =
      cov v + (if (L.contains v && targets.contains v) then 1 else 0) := by
  intro L
  induction L with
  | nil => intro cov v _; simp
  | cons w rest ih =>
    intro cov v hnd
    simp only [List.foldl_cons]
    by_cases hvw : v = w
    · subst hvw
      have hv : v ∉ rest := (List.nodup_cons.mp hnd).1
      rw [foldl_cover_notmem targets rest _ v hv]
      have hcv : (v :: rest).contains v = true := contains_iff_mem.mpr (by simp)
      by_cases ht : targets.contains v
      · simp only [if_pos ht, covInc_self, hcv, ht, Bool.and_self, if_true]
      · have ht2 : targets.contains v = false := by simpa using ht
        rw [hcv, ht2]
        simp
    · rw [ih _ v (List.nodup_cons.mp hnd).2]
      have hcv : (w :: rest).contains v = rest.contains v := by
        by_cases hm : v ∈ rest
        · rw [contains_iff_mem.mpr (by simp [hm]), contains_iff_mem.mpr hm]
        · have h1 : ((w :: rest).contains v) = false := by
            rw [← Bool.not_eq_true]
            intro hcon
            rcases List.mem_cons.mp (contains_iff_mem.mp hcon) with h | h
            · exact hvw h
            · exact hm h
          have h2 : (rest.contains v) = false := by
            rw [← Bool.not_eq_true]
            intro hcon
            exact hm (contains_iff_mem.mp hcon)
          rw [h1, h2]
      by_cases ht : targets.contains w
      · simp only [if_pos ht]
        rw [covInc_other cov w v hvw, hcv]
      · simp only [if_neg ht]
        rw [hcv]

lemma coverPage_eval (targets : List String) (cov : String → Nat) (p : Page) (v : String)
    (hnd : p.matched_variables.Nodup) :
    coverPage targets cov p v =
      cov v + (if (p.matched_variables.contains v && targets.contains v) then 1 else 0) :=
  foldl_cover_eval targets p.matched_variables cov v hnd

/-- Invariant of the selection state during `select_top_pages`: the selected
page numbers mirror the selected pages, are duplicate-free, every selected
page comes from the ranked list, and every coverage counter is bounded by the
number of selected pages matching its variable. -/
structure SelInv (ranked : List Page) (st : List Page × List Nat × (String → Nat)) : Prop where
  nums_eq : st.2.1 = st.1.map Page.page_number
  pn_nodup : (st.1.map Page.page_number).Nodup
  sel_sub : ∀ p ∈ st.1, p ∈ ranked
  cov_le : ∀ v, st.2.2 v ≤ countT v st.1

lemma cov_le_append (targets : List String) (cov : String → Nat) (sel : List Page)
    (p : Page) (v : String) (hnd : p.matched_variables.Nodup)
    (hle : cov v ≤ countT v sel) :
    coverPage targets cov p v ≤ countT v (sel ++ [p]) := by
  rw [coverPage_eval targets cov p v hnd, countT_append, countT_singleton]
  by_cases hb1 : p.matched_variables.contains v
  · by_cases hb2 : targets.contains v
    · rw [hb1, hb2]
      simp only [Bool.and_self, if_true]
      omega
    · have hb2f : targets.contains v = false := by simpa using hb2
      rw [hb1, hb2f]
      simp only [Bool.true_and, Bool.false_eq_true, if_false]
      omega
  · have hb1f : p.matched_variables.contains v = false := by simpa using hb1
    rw [hb1f]
    simp only [Bool.false_and, Bool.false_eq_true, if_false]
    omega

lemma greedyGo_inv (targets : List String) (ranked : List Page)
    (hmv : ∀ p ∈ ranked, p.matched_variables.Nodup) :
    ∀ (l sel : List Page) (nums : List Nat) (cov : String → Nat),
    (∀ p ∈ l, p ∈ ranked) →
    ((sel ++ l).map Page.page_number).Nodup →
    nums = sel.map Page.page_number →
    (∀ p ∈ sel, p ∈ ranked) →
    (∀ v, cov v ≤ countT v sel) →
    SelInv ranked (greedyGo targets l sel nums cov) := by
  intro l
  induction l with
  | nil =>
    intro sel nums cov _ hnd hn hs hc
    exact ⟨hn, by simpa using hnd, hs, hc⟩
  | cons p rest ih =>
    intro sel nums cov hl hnd hn hs hc
    unfold greedyGo
    by_cases hmax : MAX_TOTAL_PAGES ≤ sel.length
    · rw [if_pos hmax]
      refine ⟨hn, ?_, hs, hc⟩
      exact List.Nodup.sublist ((List.sublist_append_left sel (p :: rest)).map _) hnd
    · rw [if_neg hmax]
      by_cases hinc : includeTest targets cov p
      · rw [if_pos hinc]
        refine ih _ _ _ (fun q hq => hl q (by simp [hq])) ?_ ?_ ?_ ?_
        · rw [List.append_assoc]
          simpa using hnd
        · rw [List.map_append, hn]
          rfl
        · intro q hq
          rcases List.mem_append.mp hq with h1 | h2
          · exact hs q h1
          · simp only [List.mem_singleton] at h2
            rw [h2]
            exact hl p (by simp)
        · intro v
          exact cov_le_append targets cov sel p v (hmv p (hl p (by simp))) (hc v)
      · rw [if_neg hinc]
        refine ih _ _ _ (fun q hq => hl q (by simp [hq])) ?_ hn hs hc
        have hsub : (sel ++ rest).Sublist (sel ++ p :: rest) :=
          List.Sublist.append_left (List.Sublist.cons p (List.Sublist.refl rest)) sel
        exact List.Nodup.sublist (hsub.map _) hnd

lemma backGo_spec (ranked : List Page) (v : String) :
    ∀ (l sel : List Page) (nums : List Nat) (cov : String → Nat),
    nums = sel.map Page.page_number →
    (sel.map Page.page_number).Nodup →
    (∀ p ∈ sel, p ∈ ranked) →
    (∀ p ∈ l, p ∈ ranked) →
    (∀ w, cov w ≤ countT w sel) →
    SelInv ranked (backGo v l sel nums cov) ∧
    (∀ w, w ≠ v → (backGo v l sel nums cov).2.2 w = cov w) ∧
    (MIN_REQUIRED_PAGES ≤ (backGo v l sel nums cov).2.2 v ∨
      (∀ p ∈ l, pMatch v p = true → p.page_number ∈ (backGo v l sel nums cov).2.1)) := by
  intro l
  induction l with
  | nil =>
    intro sel nums cov hn hnd hs _ hc
    refine ⟨⟨hn, hnd, hs, hc⟩, fun w _ => rfl, Or.inr ?_⟩
    intro p hp
    exact absurd hp (List.not_mem_nil p)
  | cons p rest ih =>
    intro sel nums cov hn hnd hs hl hc
    unfold backGo
    by_cases h1 : nums.contains p.page_number
    · rw [if_pos h1]
      obtain ⟨hinv, hcov, hdisj⟩ :=
        ih sel nums cov hn hnd hs (fun q hq => hl q (by simp [hq])) hc
      refine ⟨hinv, hcov, ?_⟩
      rcases hdisj with hmin | hall
      · exact Or.inl hmin
      · refine Or.inr ?_
        intro q hq hm
        rcases List.mem_cons.mp hq with hqp | hq2
        · obtain ⟨extra, hex⟩ := backGo_append v rest sel nums cov
          rw [hinv.nums_eq, hex, List.map_append]
          refine List.mem_append.mpr (Or.inl ?_)
          rw [hqp, ← hn]
          exact contains_iff_mem.mp h1
        · exact hall q hq2 hm
    · rw [if_neg h1]
      have hpn_not : p.page_number ∉ sel.map Page.page_number := by
        rw [← hn]
        intro hmem
        exact h1 (contains_iff_mem.mpr hmem)
      by_cases h2 : p.matched_variables.contains v
      · rw [if_pos h2]
        have hnd2 : ((sel ++ [p]).map Page.page_number).Nodup := by
          rw [List.map_append, List.nodup_append]
          refine ⟨hnd, by simp, ?_⟩
          intro x hx1 hx2
          simp only [List.map_cons, List.map_nil, List.mem_singleton] at hx2
          subst hx2
          exact hpn_not hx1
        have hn2 : nums ++ [p.page_number] = (sel ++ [p]).map Page.page_number := by
          rw [List.map_append, hn]
          rfl
        have hs2 : ∀ q ∈ sel ++ [p], q ∈ ranked := by
          intro q hq
          rcases List.mem_append.mp hq with hq1 | hq2
          · exact hs q hq1
          · simp only [List.mem_singleton] at hq2
            rw [hq2]
            exact hl p (by simp)
        have hc2 : ∀ w, covInc cov v w ≤ countT w (sel ++ [p]) := by
          intro w
          rw [countT_append, countT_singleton]
          by_cases hwv : w = v
          · subst hwv
            rw [covInc_self, h2]
            have := hc w
            simp only [if_true]
            omega
          · rw [covInc_other cov v w hwv]
            have := hc w
            by_cases hb : p.matched_variables.contains w
            · rw [hb]; simp only [if_true]; omega
            · have hbf : p.matched_variables.contains w = false := by simpa using hb
              rw [hbf]; simp only [Bool.false_eq_true, if_false]; omega
        by_cases h3 : MIN_REQUIRED_PAGES ≤ covInc cov v v
        · rw [if_pos h3]
          exact ⟨⟨hn2, hnd2, hs2, hc2⟩, fun w hw => covInc_other cov v w hw, Or.inl h3⟩
        · rw [if_neg h3]
          obtain ⟨hinv, hcov, hdisj⟩ :=
            ih (sel ++ [p]) (nums ++ [p.page_number]) (covInc cov v)
              hn2 hnd2 hs2 (fun q hq => hl q (by simp [hq])) hc2
          refine ⟨hinv, ?_, ?_⟩
          · intro w hw
            rw [hcov w hw, covInc_other cov v w hw]
          · rcases hdisj with hmin | hall
            · exact Or.inl hmin
            · refine Or.inr ?_
              intro q hq hm
              rcases List.mem_cons.mp hq with hqp | hq2
              · obtain ⟨extra, hex⟩ :=
                  backGo_append v rest (sel ++ [p]) (nums ++ [p.page_number]) (covInc cov v)
                rw [hinv.nums_eq, hex, List.map_append]
                refine List.mem_append.mpr (Or.inl ?_)
                rw [hqp, List.map_append]
                simp
              · exact hall q hq2 hm
      · rw [if_neg h2]
        obtain ⟨hinv, hcov, hdisj⟩ :=
          ih sel nums cov hn hnd hs (fun q hq => hl q (by simp [hq])) hc
        refine ⟨hinv, hcov, ?_⟩
        rcases hdisj with hmin | hall
        · exact Or.inl hmin
        · refine Or.inr ?_
          intro q hq hm
          rcases List.mem_cons.mp hq with hqp | hq2
          · rw [hqp] at hm
            exact absurd hm (by simpa [pMatch] using h2)
          · exact hall q hq2 hm

lemma backfill_inv (ranked : List Page) :
    ∀ (vs : List String) (st : List Page × List Nat × (String → Nat)),
    SelInv ranked st → SelInv ranked (backfill ranked vs st) := by
  intro vs
  induction vs with
  | nil => intro st h; exact h
  | cons v rest ih =>
    intro st hinv
    obtain ⟨sel, nums, cov⟩ := st
    unfold backfill
    by_cases h1 : MIN_REQUIRED_PAGES ≤ cov v
    · rw [if_pos h1]
      exact ih (sel, nums, cov) hinv
    · rw [if_neg h1]
      refine ih (backGo v ranked sel nums cov) ?_
      exact (backGo_spec ranked v ranked sel nums cov hinv.nums_eq hinv.pn_nodup
        hinv.sel_sub (fun p hp => hp) hinv.cov_le).1

lemma backfill_good (ranked : List Page) (T : String)
    (hrnd : (ranked.map Page.page_number).Nodup) :
    ∀ (vs : List String) (st : List Page × List Nat × (String → Nat)),
    SelInv ranked st → T ∈ vs →
    min (countT T ranked) MIN_REQUIRED_PAGES ≤ countT T (backfill ranked vs st).1 := by
  intro vs
  induction vs with
  | nil => intro st _ hT; exact absurd hT (List.not_mem_nil T)
  | cons v rest ih =>
    intro st hinv hT
    obtain ⟨sel, nums, cov⟩ := st
    unfold backfill
    by_cases h1 : MIN_REQUIRED_PAGES ≤ cov v
    · rw [if_pos h1]
      by_cases hvT : v = T
      · subst hvT
        have hgood : MIN_REQUIRED_PAGES ≤ countT v sel := le_trans h1 (hinv.cov_le v)
        obtain ⟨extra, hex⟩ := backfill_append ranked rest (sel, nums, cov)
        rw [hex, countT_append]
        have hmr : min (countT v ranked) MIN_REQUIRED_PAGES ≤ MIN_REQUIRED_PAGES :=
          min_le_right _ _
        change min (countT v ranked) MIN_REQUIRED_PAGES ≤ countT v sel + countT v extra
        omega
      · have hTrest : T ∈ rest := by
          rcases List.mem_cons.mp hT with h | h
          · exact absurd h.symm hvT
          · exact h
        exact ih (sel, nums, cov) hinv hTrest
    · rw [if_neg h1]
      obtain ⟨hinv2, hcov2, hdisj⟩ :=
        backGo_spec ranked v ranked sel nums cov hinv.nums_eq hinv.pn_nodup
          hinv.sel_sub (fun p hp => hp) hinv.cov_le
      by_cases hvT : v = T
      · subst hvT
        have hgood : min (countT v ranked) MIN_REQUIRED_PAGES ≤
            countT v (backGo v ranked sel nums cov).1 := by
          rcases hdisj with hmin | hall
          · have hcl := hinv2.cov_le v
            have hmr : min (countT v ranked) MIN_REQUIRED_PAGES ≤ MIN_REQUIRED_PAGES :=
              min_le_right _ _
            omega
          · have hinj : ∀ x ∈ ranked, ∀ y ∈ ranked,
                x.page_number = y.page_number → x = y :=
              (List.nodup_map_iff_inj_on (List.Nodup.of_map _ hrnd)).mp hrnd
            have hsub : ranked.filter (pMatch v) ⊆
                (backGo v ranked sel nums cov).1.filter (pMatch v) := by
              intro p hp
              rw [List.mem_filter] at hp ⊢
              refine ⟨?_, hp.2⟩
              have hpn : p.page_number ∈ (backGo v ranked sel nums cov).2.1 :=
                hall p hp.1 hp.2
              rw [hinv2.nums_eq] at hpn
              rcases List.mem_map.mp hpn with ⟨q, hq, hqe⟩
              have hqr : q ∈ ranked := hinv2.sel_sub q hq
              have hqp : q = p := hinj q hqr p hp.1 hqe
              rwa [← hqp]
            have hndf : (ranked.filter (pMatch v)).Nodup :=
              (List.Nodup.of_map _ hrnd).filter _
            have hlen := (hndf.subperm hsub).length_le
            have hml : min (countT v ranked) MIN_REQUIRED_PAGES ≤ countT v ranked :=
              min_le_left _ _
            have e1 : countT v ranked = (ranked.filter (pMatch v)).length := by
              rw [countT, List.countP_eq_length_filter]
            have e2 : countT v (backGo v ranked sel nums cov).1 =
                ((backGo v ranked sel nums cov).1.filter (pMatch v)).length := by
              rw [countT, List.countP_eq_length_filter]
            omega
        obtain ⟨extra, hex⟩ := backfill_append ranked rest (backGo v ranked sel nums cov)
        rw [hex, countT_append]
        omega
      · have hTrest : T ∈ rest := by
          rcases List.mem_cons.mp hT with h | h
          · exact absurd h.symm hvT
          · exact h
        exact ih (backGo v ranked sel nums cov) hinv2 hTrest

/-- C3: for every requested variable `T` (with duplicate-free page numbers and
duplicate-free per-page matched-variable sets, as `extract_variable_page_map`
produces) that matches at least one page, the selection of `select_top_pages`
contains at least `min(number of matching pages, MIN_REQUIRED_PAGES)` pages
matching `T`. -/
theorem select_top_pages_min_coverage
    (page_data : List Page) (targets : List String) (T : String)
    (hT : T ∈ targets)
    (hpn : (page_data.map Page.page_number).Nodup)
    (hmv : ∀ p ∈ page_data, p.matched_variables.Nodup)
    (hsome : 1 ≤ countT T page_data) :
    min (countT T page_data) MIN_REQUIRED_PAGES ≤
      countT T (select_top_pages page_data targets) := by
  have hperm : (rankedPages page_data).Perm page_data :=
    List.mergeSort_perm page_data rankLE
  have hrnd : ((rankedPages page_data).map Page.page_number).Nodup := by
    rw [(hperm.map Page.page_number).nodup_iff]
    exact hpn
  have hmvr : ∀ p ∈ rankedPages page_data, p.matched_variables.Nodup :=
    fun p hp => hmv p (hperm.mem_iff.mp hp)
  have hcount : countT T (rankedPages page_data) = countT T page_data :=
    hperm.countP_eq (pMatch T)
  have hinv1 : SelInv (rankedPages page_data) (greedyState page_data targets) :=
    greedyGo_inv targets (rankedPages page_data) hmvr (rankedPages page_data) [] []
      (fun _ => 0) (fun p hp => hp) (by simpa using hrnd) rfl
      (fun p hp => absurd hp (List.not_mem_nil p)) (fun v => by simp [countT])
  have hgood := backfill_good (rankedPages page_data) T hrnd targets
    (greedyState page_data targets) hinv1 hT
  have hperm2 : (select_top_pages page_data targets).Perm
      (backfillState page_data targets).1 :=
    List.mergeSort_perm _ pageNumLE
  have hc2 : countT T (select_top_pages page_data targets) =
      countT T (backfillState page_data targets).1 :=
    hperm2.countP_eq (pMatch T)
  rw [hc2, ← hcount]
  exact hgood

def pageExample : Page :=
  { page_number := 1, text := "employees 100", matched_variables := ["EMPLOYEES"],
    match_count := 1 }

/-- Witness for C3: a one-page document matching EMPLOYEES; the selection
covers EMPLOYEES with min(1, 2) = 1 page. -/
theorem select_top_pages_min_coverage_witness :
    min (countT "EMPLOYEES" [pageExample]) MIN_REQUIRED_PAGES ≤
      countT "EMPLOYEES" (select_top_pages [pageExample] ["EMPLOYEES"]) :=
  select_top_pages_min_coverage [pageExample] ["EMPLOYEES"] "EMPLOYEES"
    (by decide) (by decide) (by decide) (by decide)

end EsaMne
